import Mathlib

set_option maxHeartbeats 1600000
set_option maxRecDepth 4000

/-!
Verification of the extractive summarization / keyword engine of
`src/app.py` (class `TextProcessor`): the inline normalization block of
`summarize_text` (lines 497-581), `simple_summarize` (lines 366-492) and
`extract_keywords` (lines 606-658), shallowly embedded over `List Char` /
`String`, with Python regex substitution modelled by a small backtracking
matcher.  Python floats appearing in the scoring code (`0.3`, `0.7`, `1.3`,
`0.8`, `1.2`, `1.5`, frequency boosts) are modelled as exact rationals.
-/

/-- Whitespace as matched by Python's `\s` / `str.strip` (ASCII whitespace,
separator controls, NEL, NBSP and the Unicode space characters). -/
def pyIsSpace (c : Char) : Bool :=
  c = ' ' || c = '\t' || c = '\n' || c = '\r' ||
  c = '\u000b' || c = '\u000c' ||
  c = '\u001c' || c = '\u001d' || c = '\u001e' || c = '\u001f' ||
  c = '\u0085' || c = '\u00a0' ||
  c = '\u1680' || ('\u2000' ≤ c && c ≤ '\u200a') ||
  c = '\u2028' || c = '\u2029' || c = '\u202f' || c = '\u205f' || c = '\u3000'

/-- Hangul syllable range `가-힣` used throughout the source's regexes. -/
def isHangulSyl (c : Char) : Bool := '가' ≤ c && c ≤ '힣'

/-- Latin letter, the `[a-zA-Z]` class. -/
def isLatinLetter (c : Char) : Bool :=
  ('a' ≤ c && c ≤ 'z') || ('A' ≤ c && c ≤ 'Z')

/-- ASCII digit, Python's `\d` over the program's input scripts. -/
def pyIsDigit (c : Char) : Bool := '0' ≤ c && c ≤ '9'

/-- Python's `\w`, modelled over the scripts this program processes
(ASCII alphanumerics and underscore, Hangul syllables, Hangul jamo and
compatibility jamo). -/
def pyIsWord (c : Char) : Bool :=
  ('a' ≤ c && c ≤ 'z') || ('A' ≤ c && c ≤ 'Z') ||
  ('0' ≤ c && c ≤ '9') || c = '_' ||
  isHangulSyl c ||
  ('ᄀ' ≤ c && c ≤ 'ᇿ') || ('ㄱ' ≤ c && c ≤ 'ㆎ')

/-- Characters kept unchanged by the substitution
`re.sub(r'[^\w\s가-힣.,!?]', ' ', text)` (src/app.py line 579). -/
def keepChar (c : Char) : Bool :=
  pyIsWord c || pyIsSpace c || isHangulSyl c ||
  c = '.' || c = ',' || c = '!' || c = '?'

/-- Worker for `collapseWs`; the flag records whether the previous character
was inside a whitespace run already emitted as a single `' '`. -/
def collapseGo : Bool → List Char → List Char
  | _, [] => []
  | inWs, c :: rest =>
    if pyIsSpace c then
      if inWs then collapseGo true rest else ' ' :: collapseGo true rest
    else c :: collapseGo false rest

/-- Embedding of `re.sub(r'\s+', ' ', text)`: every maximal whitespace run
becomes a single space. -/
def collapseWs (l : List Char) : List Char := collapseGo false l

/-- Remove trailing whitespace; the result is a prefix of the input. -/
def dropTrailWs : List Char → List Char
  | [] => []
  | c :: rest =>
    let r := dropTrailWs rest
    if r = [] && pyIsSpace c then [] else c :: r

/-- Embedding of Python's `str.strip()` on character lists. -/
def pyStripL (l : List Char) : List Char := dropTrailWs (l.dropWhile pyIsSpace)

/-- Embedding of Python's `str.strip()` on strings. -/
def pyStrip (s : String) : String := String.mk (pyStripL s.data)

/-- Whether the character list contains two adjacent whitespace characters
(the "run of two or more consecutive whitespace characters" of the spec). -/
def hasWsRun : List Char → Bool
  | a :: b :: rest => (pyIsSpace a && pyIsSpace b) || hasWsRun (b :: rest)
  | _ => false

/-- Python's substring containment `p in s` on character lists. -/
def occursIn (p : List Char) : List Char → Bool
  | [] => decide (p = [])
  | c :: rest => p.isPrefixOf (c :: rest) || occursIn p rest

/-- Worker for `runsOf`: `cur` is the current run, reversed. -/
def runsGo (p : Char → Bool) (minLen : Nat) (cur : List Char) :
    List Char → List (List Char)
  | [] => if minLen ≤ cur.length && !cur.isEmpty then [cur.reverse] else []
  | c :: rest =>
    if p c then runsGo p minLen (c :: cur) rest
    else
      (if minLen ≤ cur.length && !cur.isEmpty then [cur.reverse] else []) ++
        runsGo p minLen [] rest

/-- Embedding of `re.findall` for a pattern of the shape `[class]{m,}`:
the maximal runs of characters of the class, of length at least `minLen`. -/
def runsOf (p : Char → Bool) (minLen : Nat) (l : List Char) : List (List Char) :=
  runsGo p minLen [] l

/-- Association-list lookup, mirroring Python `dict.get`. -/
def lookupAssoc {α : Type} (l : List (String × α)) (k : String) : Option α :=
  match l with
  | [] => none
  | (a, b) :: r => if a = k then some b else lookupAssoc r k

/-- Association-list store, mirroring Python `dict.__setitem__`: an existing
key keeps its (insertion-order) position, a new key is appended. -/
def insertAssoc {α : Type} (l : List (String × α)) (k : String) (v : α) :
    List (String × α) :=
  match l with
  | [] => [(k, v)]
  | (a, b) :: r => if a = k then (a, v) :: r else (a, b) :: insertAssoc r k v

/-- Mirror of `d[w] = d.get(w, 0) + 1` for natural-number counts. -/
def bumpAssocN (l : List (String × Nat)) (k : String) : List (String × Nat) :=
  insertAssoc l k ((lookupAssoc l k).getD 0 + 1)

/-- Mirror of `d[w] = d.get(w, 0) + 1` for rational counts. -/
def bumpAssocQ (l : List (String × ℚ)) (k : String) : List (String × ℚ) :=
  insertAssoc l k ((lookupAssoc l k).getD 0 + 1)

/-- Stable descending insertion by the rational value component: the element
is placed before the first entry whose value is `≤` its own, so equal values
keep their original relative order, exactly as Python's stable
`sorted(..., key=lambda x: x[1], reverse=True)`. -/
def insDesc (x : String × ℚ) : List (String × ℚ) → List (String × ℚ)
  | [] => [x]
  | y :: ys => if y.2 ≤ x.2 then x :: y :: ys else y :: insDesc x ys

/-- Embedding of `sorted(items, key=lambda x: x[1], reverse=True)`. -/
def sortByValDesc (l : List (String × ℚ)) : List (String × ℚ) :=
  l.foldr insDesc []

/-- Mirror of `list.index(x)`: index of the first occurrence (total; only
ever applied to members, as in the source). -/
def firstIdx (l : List String) (s : String) : Nat :=
  match l with
  | [] => 0
  | a :: r => if a = s then 0 else firstIdx r s + 1

/-- Regular-expression syntax sufficient for the substitution patterns of
`TextProcessor.summarize_text` (src/app.py lines 502-576): literals,
character classes, sequencing, ordered alternation, greedy and lazy stars
and the word boundary `\b`. -/
inductive RE : Type where
  | eps : RE
  | lit : Char → RE
  | cls : (Char → Bool) → RE
  | seq : RE → RE → RE
  | alt : RE → RE → RE
  | starG : RE → RE
  | starL : RE → RE
  | wb : RE

/-- Backtracking matcher with Python `re` semantics: alternatives are tried
left to right, greedy stars try the longest extension first, lazy stars the
shortest, and the first overall success wins.  `prev` is the character to the
left of the current position (for `\b`), `k` the continuation receiving the
updated left character and the remaining input.  The fuel only bounds the
recursion depth; `reMatchRest` supplies enough for any input. -/
def mtch : Nat → RE → Option Char → List Char →
    (Option Char → List Char → Option (List Char)) → Option (List Char)
  | 0, _, _, _, _ => none
  | fuel + 1, r, prev, l, k =>
    match r with
    | .eps => k prev l
    | .lit c =>
      match l with
      | [] => none
      | c2 :: rest => if c2 = c then k (some c2) rest else none
    | .cls p =>
      match l with
      | [] => none
      | c2 :: rest => if p c2 then k (some c2) rest else none
    | .seq a b => mtch fuel a prev l (fun p2 l2 => mtch fuel b p2 l2 k)
    | .alt a b =>
      match mtch fuel a prev l k with
      | some res => some res
      | none => mtch fuel b prev l k
    | .starG a =>
      match mtch fuel a prev l (fun p2 l2 =>
          if l2.length < l.length then mtch fuel (.starG a) p2 l2 k
          else none) with
      | some res => some res
      | none => k prev l
    | .starL a =>
      match k prev l with
      | some res => some res
      | none =>
        mtch fuel a prev l (fun p2 l2 =>
          if l2.length < l.length then mtch fuel (.starL a) p2 l2 k
          else none)
    | .wb =>
      let leftWord := match prev with | none => false | some c => pyIsWord c
      let rightWord := match l with | [] => false | c :: _ => pyIsWord c
      if leftWord ≠ rightWord then k prev l else none

/-- Try to match `p` at the start of `l`; on success return the input
remaining after the (first, in backtracking order) match. -/
def reMatchRest (p : RE) (prev : Option Char) (l : List Char) :
    Option (List Char) :=
  mtch ((l.length + 4) * 64) p prev l (fun _ r => some r)

/-- Worker for `reSub`: scan left to right; at each position try the pattern
and on a non-empty match drop the matched characters (the replacement is the
empty string for every catalog rule), resuming after the match, as
`re.sub(pattern, '', text)` does.  The fuel starts at the input length,
which suffices since every step consumes at least one character. -/
def reSubAuxF : Nat → RE → Option Char → List Char → List Char
  | 0, _, _, l => l
  | _ + 1, _, _, [] => []
  | n + 1, p, prev, c :: rest =>
    match reMatchRest p prev (c :: rest) with
    | some r =>
      if r.length < (c :: rest).length then
        reSubAuxF n p (((c :: rest).take ((c :: rest).length - r.length)).getLast?) r
      else c :: reSubAuxF n p (some c) rest
    | none => c :: reSubAuxF n p (some c) rest

/-- Embedding of `re.sub(pattern, '', text)` for the non-nullable patterns
of the removal catalog. -/
def reSub (p : RE) (l : List Char) : List Char := reSubAuxF l.length p none l

/-- The pattern matching a literal string. -/
def slit (s : String) : RE :=
  s.data.foldr (fun c r => RE.seq (RE.lit c) r) RE.eps

/-- Sequencing of a list of pattern pieces. -/
def rcat (l : List RE) : RE := l.foldr RE.seq RE.eps

/-- The class `.` of Python (any character except a newline). -/
def dotCls : RE := RE.cls (fun c => c ≠ '\n')

/-- Lazy `.*?`. -/
def dotLazy : RE := RE.starL (RE.cls (fun c => c ≠ '\n'))

/-- Greedy `\s*`. -/
def wsStar : RE := RE.starG (RE.cls pyIsSpace)

/-- Greedy `\d+`. -/
def digitPlus : RE := RE.seq (RE.cls pyIsDigit) (RE.starG (RE.cls pyIsDigit))

/-- Two literal pieces separated by `\s*`, e.g. `앱\s*다운로드`. -/
def gap2 (a b : String) : RE := rcat [slit a, wsStar, slit b]

/-- Two literal pieces separated by lazy `.*?`, e.g. `페이스북.*?공유`. -/
def thru2 (a b : String) : RE := rcat [slit a, dotLazy, slit b]

/-- Greedy `[class]+`. -/
def plusC (p : Char → Bool) : RE := RE.seq (RE.cls p) (RE.starG (RE.cls p))

/-- The class `[a-zA-Z0-9._%+-]` of the e-mail pattern's local part. -/
def emailLocalC (c : Char) : Bool :=
  isLatinLetter c || pyIsDigit c ||
  c = '.' || c = '_' || c = '%' || c = '+' || c = '-'

/-- The class `[a-zA-Z0-9.-]` of the e-mail pattern's domain part. -/
def emailDomainC (c : Char) : Bool :=
  isLatinLetter c || pyIsDigit c || c = '.' || c = '-'

/-- `[a-zA-Z0-9._%+-]+@[a-zA-Z0-9.-]+\.[a-zA-Z]{2,}` (src/app.py line 502). -/
def emailRE : RE :=
  rcat [plusC emailLocalC, RE.lit '@', plusC emailDomainC, RE.lit '.',
    RE.cls isLatinLetter, RE.cls isLatinLetter, RE.starG (RE.cls isLatinLetter)]

/-- The class `[$-_@.&+]` (a codepoint range plus four extra characters). -/
def urlPunct1C (c : Char) : Bool :=
  ('$' ≤ c && c ≤ '_') || c = '@' || c = '.' || c = '&' || c = '+'

/-- The class `[!*\\(\\),]`. -/
def urlPunct2C (c : Char) : Bool :=
  c = '!' || c = '*' || c = '\\' || c = '(' || c = ')' || c = ','

/-- The class `[0-9a-fA-F]`. -/
def hexDigitC (c : Char) : Bool :=
  pyIsDigit c || ('a' ≤ c && c ≤ 'f') || ('A' ≤ c && c ≤ 'F')

/-- One alternative of the URL pattern's repeated group. -/
def urlBodyRE : RE :=
  RE.alt (RE.cls isLatinLetter)
    (RE.alt (RE.cls pyIsDigit)
      (RE.alt (RE.cls urlPunct1C)
        (RE.alt (RE.cls urlPunct2C)
          (rcat [RE.lit '%', RE.cls hexDigitC, RE.cls hexDigitC]))))

/-- `http[s]?://` (optional `s` tried greedily). -/
def httpHeadRE : RE :=
  rcat [slit "http", RE.alt (RE.lit 's') RE.eps, slit "://"]

/-- `http[s]?://(?:[a-zA-Z]|[0-9]|[$-_@.&+]|[!*\\(\\),]|(?:%[0-9a-fA-F][0-9a-fA-F]))+`
(src/app.py line 503). -/
def urlRE : RE := rcat [httpHeadRE, urlBodyRE, RE.starG urlBodyRE]

/-- Greedy `[^\n.]*` used by the photo/credit removal rules. -/
def noNlDotStar : RE := RE.starG (RE.cls (fun c => c ≠ '\n' && c ≠ '.'))

/-- A literal head followed by `\s*[^\n.]*`, e.g. `사진제공\s*[^\n.]*`. -/
def creditTail (a : String) : RE := rcat [slit a, wsStar, noNlDotStar]

/-- A literal head, `\s*`, `=` or `:` , `\s*`, then `[^\n.]*`,
e.g. `사진\s*=\s*[^\n.]*`. -/
def creditEq (a : String) (sep : Char) : RE :=
  rcat [slit a, wsStar, RE.lit sep, wsStar, noNlDotStar]

/-- The ordered catalog of removal substitutions applied by the inline
normalization block of `TextProcessor.summarize_text` (src/app.py lines
502-576); every entry is substituted by the empty string, in this order. -/
def removalRules : List RE :=
  [ emailRE
  , urlRE
  , rcat [plusC isHangulSyl, wsStar, slit "기자"]
  , thru2 "【" "】"
  , thru2 "[" "]"
  , rcat [slit "jebo23", dotLazy, slit "친구", wsStar, slit "추가", dotLazy,
      RE.lit '@', dotLazy, RE.lit '.', dotLazy, RE.starG (RE.cls isHangulSyl)]
  , rcat [slit "라인", wsStar, slit "앱에서", dotLazy, slit "친구", wsStar,
      slit "추가"]
  , rcat [slit "좋아요", digitPlus, slit "응원해요", digitPlus, slit "후속",
      wsStar, slit "원해요", digitPlus]
  , slit "ADVERTISEMENT"
  , slit "광고"
  , slit "AD"
  , thru2 "페이스북" "공유"
  , thru2 "트위터" "공유"
  , thru2 "카카오톡" "공유"
  , thru2 "네이버" "공유"
  , slit "공유하기"
  , thru2 "구독" "알림"
  , thru2 "팔로우" "하기"
  , rcat [slit "더", wsStar, slit "많은", dotLazy, slit "뉴스"]
  , gap2 "뉴스" "더보기"
  , gap2 "앱" "다운로드"
  , thru2 "모바일" "앱"
  , creditEq "사진" '='
  , creditEq "출처" ':'
  , creditEq "제공" '='
  , creditEq "이미지" '='
  , creditTail "사진제공"
  , creditTail "자료사진"
  , gap2 "연합뉴스" "자료사진"
  , gap2 "뉴시스" "자료사진"
  , gap2 "게티이미지" "뱅크"
  , gap2 "AFP" "연합뉴스"
  , gap2 "로이터" "연합뉴스"
  , gap2 "EPA" "연합뉴스"
  , gap2 "AP" "연합뉴스"
  , gap2 "사진" "출처"
  , gap2 "이미지" "출처"
  , slit "닫기"
  , thru2 "제보는" "카카오톡"
  , thru2 "제보" "접수"
  , gap2 "뉴스" "제보"
  , gap2 "독자" "제보"
  , gap2 "시청자" "제보"
  , gap2 "취재" "요청"
  , thru2 "문의" "연락처"
  , thru2 "홈페이지" "바로가기"
  , thru2 "모바일" "버전"
  , thru2 "PC" "버전"
  , thru2 "전체" "메뉴"
  , thru2 "메뉴" "닫기"
  , thru2 "로그인" "회원가입"
  , thru2 "회원" "서비스"
  , thru2 "이용약관" "개인정보"
  , thru2 "개인정보" "처리방침"
  , thru2 "저작권" "정책"
  , thru2 "청소년" "보호정책"
  , rcat [slit ".kr", RE.wb]
  , rcat [slit ".co.kr", RE.wb]
  , rcat [slit ".com", RE.wb]
  , slit "www."
  , httpHeadRE
  ]

/-- Apply the removal catalog in order. -/
def applyRules (l : List Char) : List Char :=
  removalRules.foldl (fun acc p => reSub p acc) l

/-- The Text Normalizer: the inline preprocessing block of
`TextProcessor.summarize_text` (src/app.py lines 497-581) — collapse
whitespace, strip, apply the removal catalog, collapse whitespace again,
replace every character outside `[\w\s가-힣.,!?]` by a space, and strip. -/
def normalizeL (l : List Char) : List Char :=
  let t1 := pyStripL (collapseWs l)
  let t2 := applyRules t1
  let t3 := collapseWs t2
  let t4 := t3.map (fun c => if keepChar c then c else ' ')
  pyStripL t4

/-- The Text Normalizer on strings. -/
def normalize_text (s : String) : String := String.mk (normalizeL s.data)

/-- Worker for the Korean sentence split
`re.split(r'[.!?]|다\s|었다\s|였다\s|습니다\s|ㅂ니다\s', text)`
(src/app.py line 374): the current piece is accumulated reversed in `cur`;
at each position the alternatives are tried in the pattern's order (the
first characters of the alternatives are pairwise distinct).  The fuel
starts at the input length, which suffices because every step consumes at
least one character. -/
def sentSplitGo : Nat → List Char → List Char → List (List Char)
  | 0, cur, l => [cur.reverse ++ l]
  | _ + 1, cur, [] => [cur.reverse]
  | n + 1, cur, c :: rest =>
    if c = '.' || c = '!' || c = '?' then cur.reverse :: sentSplitGo n [] rest
    else if c = '다' then
      match rest with
      | d :: rest2 =>
        if pyIsSpace d then cur.reverse :: sentSplitGo n [] rest2
        else sentSplitGo n (c :: cur) (d :: rest2)
      | [] => sentSplitGo n (c :: cur) []
    else if c = '었' || c = '였' then
      match rest with
      | d :: e :: rest2 =>
        if d = '다' && pyIsSpace e then cur.reverse :: sentSplitGo n [] rest2
        else sentSplitGo n (c :: cur) (d :: e :: rest2)
      | [d] => sentSplitGo n (c :: cur) [d]
      | [] => sentSplitGo n (c :: cur) []
    else if c = '습' || c = 'ㅂ' then
      match rest with
      | d :: e :: f :: rest2 =>
        if d = '니' && e = '다' && pyIsSpace f then
          cur.reverse :: sentSplitGo n [] rest2
        else sentSplitGo n (c :: cur) (d :: e :: f :: rest2)
      | [d, e] => sentSplitGo n (c :: cur) [d, e]
      | [d] => sentSplitGo n (c :: cur) [d]
      | [] => sentSplitGo n (c :: cur) []
    else sentSplitGo n (c :: cur) rest

/-- The sentence split of `simple_summarize` on a whole text. -/
def sentSplit (l : List Char) : List (List Char) := sentSplitGo l.length [] l

/-- Substrings whose presence rejects a candidate sentence
(src/app.py lines 380-401, the conjunction after the length test). -/
def bannedSubstrings : List String :=
  ["사진=", "출처:", "제공=", "이미지=", "자료사진", "게티이미지", "AFP",
   "로이터", "닫기", "제보는", "카카오톡", "뉴스제보", "독자제보",
   "시청자제보", "취재요청", "홈페이지", "바로가기", "로그인", "회원가입",
   ".kr", ".com"]

/-- The sentence filter of `simple_summarize`: length above 15, no byline
marker in the first 10 characters, none of the banned substrings. -/
def sentenceKeep (s : String) : Bool :=
  15 < s.length &&
  !(occursIn "기자".data (s.data.take 10)) &&
  bannedSubstrings.all (fun b => !(occursIn b.data s.data))

/-- The filtered, verb-ending-aware sentence segmentation
(src/app.py lines 372-402): split, strip each piece, keep survivors. -/
def filteredSentences (text : String) : List String :=
  ((sentSplit text.data).map (fun l => String.mk (pyStripL l))).filter
    sentenceKeep

/-- Worker for Python's `text.split('.')`. -/
def splitOnDotGo (cur : List Char) : List Char → List (List Char)
  | [] => [cur.reverse]
  | c :: rest =>
    if c = '.' then cur.reverse :: splitOnDotGo [] rest
    else splitOnDotGo (c :: cur) rest

/-- The fallback segmentation
`[s.strip() for s in text.split('.') if len(s.strip()) > 15]`
(src/app.py line 406). -/
def fallbackSentences (text : String) : List String :=
  ((splitOnDotGo [] text.data).map (fun l => String.mk (pyStripL l))).filter
    (fun s => 15 < s.length)

/-- The surviving sentence list: the filtered split, or on zero survivors
the fallback split (src/app.py lines 404-406). -/
def usedSentences (text : String) : List String :=
  if filteredSentences text = [] then fallbackSentences text
  else filteredSentences text

/-- Stop words of `simple_summarize` (src/app.py lines 420-433). -/
def stopWordsSummary : List String :=
  ["이것", "그것", "저것", "이런", "그런", "저런", "이렇게", "그렇게",
   "저렇게", "때문", "경우", "때문에", "하지만", "그러나", "그런데", "또한",
   "그리고", "이다", "있다", "없다", "한다", "된다", "이며", "이고", "에서",
   "에게", "기자", "뉴스", "기사", "보도", "발표", "관련", "대해", "한국",
   "우리나라", "오늘", "어제", "내일", "올해", "지난해", "올해", "내년",
   "지난", "다음", "현재", "최근", "앞으로", "향후", "이후", "이전", "당시",
   "지금", "jebo23", "라인", "앱에서", "친구", "추가", "좋아요", "응원해요",
   "후속", "원해요", "ADVERTISEMENT", "광고", "AD", "공유", "공유하기",
   "구독", "알림", "팔로우", "다운로드", "모바일", "페이스북", "트위터",
   "카카오톡", "네이버", "더보기", "yna", "krc", "co", "kr"]

/-- The three token scans of `simple_summarize` on a body of text:
`re.findall(r'[가-힣]{2,}')`, `re.findall(r'[a-zA-Z]{3,}')` and
`re.findall(r'\d+')`, concatenated (src/app.py lines 413-417). -/
def scoreWords (s : String) : List String :=
  ((runsOf isHangulSyl 2 s.data) ++ (runsOf isLatinLetter 3 s.data) ++
    (runsOf pyIsDigit 1 s.data)).map String.mk

/-- `' '.join(sentences)`. -/
def joinSpace (l : List String) : String := String.intercalate " " l

/-- The global frequency table of `simple_summarize`
(src/app.py lines 435-437): count each extracted word of length at least 2
that is not a stop word. -/
def wordFreqOf (t : String) : List (String × Nat) :=
  (scoreWords t).foldl
    (fun acc w =>
      if 2 ≤ w.length ∧ ¬ w ∈ stopWordsSummary then bumpAssocN acc w else acc)
    []

/-- Position weight (src/app.py lines 453-458): `1.3` within the first 30%
of the sequence, `0.8` beyond the last 30%, else `1.0`.  The source compares
against the floats `len(sentences)*0.3` and `len(sentences)*0.7`; here the
thresholds are the exact rationals `3n/10` and `7n/10`. -/
def posWeight (i n : Nat) : ℚ :=
  if 10 * i < 3 * n then 13 / 10
  else if 10 * i > 7 * n then 8 / 10
  else 1

/-- Length weight (src/app.py lines 461-465): `1.2` for a length in
`[30, 150]`, `0.7` below 20 or above 200, else `1.0`. -/
def lenWeight (s : String) : ℚ :=
  if 30 ≤ s.length ∧ s.length ≤ 150 then 12 / 10
  else if s.length < 20 ∨ 200 < s.length then 7 / 10
  else 1

/-- The base score of a sentence: the sum of the global frequency-table
counts of its extracted words (src/app.py line 450; absent words count 0). -/
def baseScore (freq : List (String × Nat)) (s : String) : Nat :=
  ((scoreWords s).map (fun w => (lookupAssoc freq w).getD 0)).sum

/-- The full score of one sentence: base times position weight (at the
index of the sentence's first occurrence, `sentences.index(sentence)`)
times length weight (src/app.py lines 450-467). -/
def scoreSentence (sents : List String) (freq : List (String × Nat))
    (s : String) : ℚ :=
  (baseScore freq s : ℚ) * posWeight (firstIdx sents s) sents.length *
    lenWeight s

/-- The scorer's dictionary `sentence_scores` (src/app.py lines 442-467),
keyed by the sentence string, built in iteration order. -/
def sentenceScores (sents : List String) : List (String × ℚ) :=
  let freq := wordFreqOf (joinSpace sents)
  sents.foldl (fun acc s => insertAssoc acc s (scoreSentence sents freq s)) []

/-- `summary_sentences`: the first `maxS` sentence strings of the stable
descending sort of the score dictionary (src/app.py lines 474-475). -/
def topSentences (scores : List (String × ℚ)) (maxS : Nat) : List String :=
  ((sortByValDesc scores).take maxS).map Prod.fst

/-- Worker for the final selection loop (src/app.py lines 478-483): walk the
surviving sentences in origin order, append those present among the top
sentences, and break once `maxS` have been collected (the break test runs
after the append). -/
def pickAux (tops : List String) (maxS : Nat) : List String → Nat → List String
  | [], _ => []
  | s :: rest, cnt =>
    if s ∈ tops then
      if maxS ≤ cnt + 1 then [s] else s :: pickAux tops maxS rest (cnt + 1)
    else pickAux tops maxS rest cnt

/-- The final ordered selection `final_sentences`. -/
def pickInOrder (sents tops : List String) (maxS : Nat) : List String :=
  pickAux tops maxS sents 0

/-- `TextProcessor.simple_summarize` (src/app.py lines 366-492). -/
def simple_summarize (text : String) (maxSentences : Nat) : String :=
  if text = "" ∨ (pyStrip text).length < 50 then "요약할 내용이 부족합니다."
  else
    let sents := usedSentences text
    if sents = [] then "문장을 분리할 수 없습니다."
    else
      let scores := sentenceScores sents
      if scores = [] then "점수를 계산할 수 없습니다."
      else
        let final := pickInOrder sents (topSentences scores maxSentences)
          maxSentences
        let result := String.intercalate ". " final
        let result2 := if result.endsWith "." then result else result ++ "."
        if result2 = "." then "요약을 생성할 수 없습니다." else result2

/-- `TextProcessor.summarize_text` (src/app.py lines 493-605) on the
self-contained path: the `sumy` library of the other branch is an external
collaborator (`use_sumy = False` when its import fails, src/app.py lines
352-364), so the normalized text goes to `simple_summarize`; the enclosing
`try` cannot fail in this pure embedding. -/
def summarize_text (text : String) (sentencesCount : Nat) : String :=
  if text = "" ∨ (pyStrip text).length < 50 then "요약할 내용이 부족합니다."
  else simple_summarize (normalize_text text) sentencesCount

/-- Stop words of `extract_keywords` (src/app.py lines 615-640). -/
def stopWordsKeywords : List String :=
  ["이", "그", "저", "것", "수", "등", "및", "의", "를", "을", "가", "이",
   "은", "는", "에", "에서", "으로", "로", "와", "과", "하고", "그리고",
   "또는", "하지만", "그러나", "따라서", "위해", "통해", "대한", "위한",
   "있는", "없는", "있다", "없다", "이다", "아니다", "한다", "된다", "것이",
   "것은", "것을", "기자", "뉴스", "기사", "보도", "발표", "관련", "대해",
   "에서", "한국", "오늘", "어제", "내일", "올해", "지난", "앞으로",
   "jebo23", "라인", "앱에서", "친구", "추가", "좋아요", "응원해요", "후속",
   "원해요", "ADVERTISEMENT", "광고", "AD", "공유", "공유하기", "구독",
   "알림", "팔로우", "다운로드", "모바일", "페이스북", "트위터", "카카오톡",
   "네이버", "더보기", "yna", "krc", "co", "kr", "문화", "연예", "사진",
   "출처", "제공", "이미지", "자료사진", "사진제공", "이미지출처",
   "사진출처", "게티이미지", "뱅크", "AFP", "로이터", "뉴시스", "EPA", "AP",
   "닫기", "제보는", "제보", "뉴스제보", "독자제보", "시청자제보",
   "취재요청", "취재", "홈페이지", "바로가기", "로그인", "회원가입", "회원",
   "서비스", "이용약관", "개인정보", "처리방침", "저작권", "정책", "청소년",
   "보호정책", "메뉴", "전체", "www", "http", "https", "com", "버전", "PC",
   "모바일", "문의", "연락처", "접수"]

/-- The token scan of `extract_keywords`:
`re.findall(r'[가-힣a-zA-Z0-9]+', text)` (src/app.py line 612). -/
def keywordTokens (text : String) : List String :=
  (runsOf (fun c => isHangulSyl c || isLatinLetter c || pyIsDigit c) 1
    text.data).map String.mk

/-- The keyword frequency dictionary (src/app.py lines 643-646); counts are
rationals because the length bonus below turns them into halves. -/
def keywordFreq (text : String) : List (String × ℚ) :=
  (keywordTokens text).foldl
    (fun acc w =>
      if 2 ≤ w.length ∧ ¬ w ∈ stopWordsKeywords then bumpAssocQ acc w else acc)
    []

/-- The `1.5×` length bonus: every term of length at least 4 has its count
multiplied by `3/2` (src/app.py lines 648-651). -/
def boostedFreq (text : String) : List (String × ℚ) :=
  (keywordFreq text).map
    (fun p => if 4 ≤ p.1.length then (p.1, p.2 * (3 / 2 : ℚ)) else p)

/-- `TextProcessor.extract_keywords` (src/app.py lines 606-658): sort the
boosted table by count descending, take the first `top_k`, keep the terms of
final count at least 2; the empty text yields the empty list. -/
def extract_keywords (text : String) (topK : Nat) : List String :=
  if text = "" then []
  else
    (((sortByValDesc (boostedFreq text)).take topK).filter
      (fun p => (2 : ℚ) ≤ p.2)).map Prod.fst

/-- The final (possibly boosted) weighted frequency of a term. -/
def weightedFreq (text : String) (w : String) : ℚ :=
  (lookupAssoc (boostedFreq text) w).getD 0

/-- Whether the list is empty or starts with a non-whitespace character. -/
def headNonWs : List Char → Bool
  | [] => true
  | c :: _ => !pyIsSpace c

/-- A successful match hands the continuation a suffix of the input. -/
theorem mtch_suffix (fuel : Nat) :
    ∀ (r : RE) (prev : Option Char) (l : List Char)
      (k : Option Char → List Char → Option (List Char)) (res : List Char),
      mtch fuel r prev l k = some res →
      ∃ p2 l2, l2 <:+ l ∧ k p2 l2 = some res := by
  induction fuel with
  | zero => intro r prev l k res h; simp [mtch] at h
  | succ fuel ih =>
    intro r prev l k res h
    cases r with
    | eps => exact ⟨prev, l, List.suffix_rfl, h⟩
    | lit c =>
      simp only [mtch] at h
      cases l with
      | nil => simp at h
      | cons c2 rest =>
        by_cases hc : c2 = c
        · simp only [hc, if_true] at h
          exact ⟨some c, rest, List.suffix_cons c2 rest, h⟩
        · simp [hc] at h
    | cls p =>
      simp only [mtch] at h
      cases l with
      | nil => simp at h
      | cons c2 rest =>
        by_cases hc : p c2
        · simp only [hc, if_true] at h
          exact ⟨some c2, rest, List.suffix_cons c2 rest, h⟩
        · simp [hc] at h
    | seq a b =>
      simp only [mtch] at h
      obtain ⟨p2, l2, hsuf, hk⟩ := ih a prev l _ res h
      obtain ⟨p3, l3, hsuf2, hk2⟩ := ih b p2 l2 _ res hk
      exact ⟨p3, l3, hsuf2.trans hsuf, hk2⟩
    | alt a b =>
      simp only [mtch] at h
      cases ha : mtch fuel a prev l k with
      | some r2 =>
        rw [ha] at h
        simp at h
        subst h
        exact ih a prev l k r2 ha
      | none =>
        rw [ha] at h
        simp at h
        exact ih b prev l k res h
    | starG a =>
      simp only [mtch] at h
      cases ha : mtch fuel a prev l
          (fun p2 l2 =>
            if l2.length < l.length then mtch fuel (RE.starG a) p2 l2 k
            else none) with
      | some r2 =>
        rw [ha] at h
        simp at h
        subst h
        obtain ⟨p2, l2, hsuf, hk⟩ := ih a prev l _ r2 ha
        by_cases hlen : l2.length < l.length
        · simp only [hlen, if_true] at hk
          obtain ⟨p3, l3, hsuf2, hk2⟩ := ih (RE.starG a) p2 l2 k r2 hk
          exact ⟨p3, l3, hsuf2.trans hsuf, hk2⟩
        · simp [hlen] at hk
      | none =>
        rw [ha] at h
        simp at h
        exact ⟨prev, l, List.suffix_rfl, h⟩
    | starL a =>
      simp only [mtch] at h
      cases hk0 : k prev l with
      | some r2 =>
        rw [hk0] at h
        simp at h
        subst h
        exact ⟨prev, l, List.suffix_rfl, hk0⟩
      | none =>
        rw [hk0] at h
        simp at h
        obtain ⟨p2, l2, hsuf, hk⟩ := ih a prev l _ res h
        by_cases hlen : l2.length < l.length
        · simp only [hlen, if_true] at hk
          obtain ⟨p3, l3, hsuf2, hk2⟩ := ih (RE.starL a) p2 l2 k res hk
          exact ⟨p3, l3, hsuf2.trans hsuf, hk2⟩
        · simp [hlen] at hk
    | wb =>
      simp only [mtch] at h
      split at h
      · exact ⟨prev, l, List.suffix_rfl, h⟩
      · simp at h

/-- The remainder returned by `reMatchRest` is a suffix of the input. -/
theorem reMatchRest_suffix (p : RE) (prev : Option Char) (l r : List Char)
    (h : reMatchRest p prev l = some r) : r <:+ l := by
  obtain ⟨p2, l2, hsuf, hk⟩ := mtch_suffix _ p prev l _ r h
  obtain rfl : l2 = r := by simpa using hk
  exact hsuf

/-- Empty-replacement substitution only deletes characters. -/
theorem reSubAuxF_sublist (n : Nat) :
    ∀ (p : RE) (prev : Option Char) (l : List Char),
      (reSubAuxF n p prev l).Sublist l := by
  induction n with
  | zero => intro p prev l; simp [reSubAuxF]
  | succ n ih =>
    intro p prev l
    cases l with
    | nil => simp [reSubAuxF]
    | cons c rest =>
      simp only [reSubAuxF]
      cases hm : reMatchRest p prev (c :: rest) with
      | some r =>
        by_cases hlen : r.length < (c :: rest).length
        · simp only [hlen, if_true]
          exact (ih p _ r).trans ((reMatchRest_suffix p prev _ r hm).sublist)
        · simp only [hlen, if_false]
          exact (ih p (some c) rest).cons₂ c
      | none => exact (ih p (some c) rest).cons₂ c

/-- `reSub` produces a sublist of its input. -/
theorem reSub_sublist (p : RE) (l : List Char) : (reSub p l).Sublist l :=
  reSubAuxF_sublist l.length p none l

/-- A fold of empty-replacement substitutions produces a sublist. -/
theorem foldSub_sublist (rules : List RE) :
    ∀ l : List Char,
      (rules.foldl (fun acc p => reSub p acc) l).Sublist l := by
  induction rules with
  | nil => intro l; simp
  | cons p ps ih =>
    intro l
    exact (ih (reSub p l)).trans (reSub_sublist p l)

/-- The removal catalog only deletes characters. -/
theorem applyRules_sublist (l : List Char) : (applyRules l).Sublist l :=
  foldSub_sublist removalRules l

/-- Every character of the collapsed list is a space or comes from the
input. -/
theorem collapseGo_mem :
    ∀ (l : List Char) (b : Bool) (c : Char),
      c ∈ collapseGo b l → c = ' ' ∨ c ∈ l := by
  intro l
  induction l with
  | nil => intro b c h; cases b <;> simp [collapseGo] at h
  | cons d rest ih =>
    intro b c h
    simp only [collapseGo] at h
    by_cases hd : pyIsSpace d
    · rw [if_pos hd] at h
      cases b with
      | true =>
        simp only [if_pos rfl] at h
        rcases ih true c h with h1 | h1
        · exact Or.inl h1
        · exact Or.inr (List.mem_cons_of_mem d h1)
      | false =>
        simp only [Bool.false_eq_true, if_false, List.mem_cons] at h
        rcases h with h1 | h1
        · exact Or.inl h1
        · rcases ih true c h1 with h2 | h2
          · exact Or.inl h2
          · exact Or.inr (List.mem_cons_of_mem d h2)
    · rw [if_neg hd] at h
      rcases List.mem_cons.mp h with h1 | h1
      · exact Or.inr (by simp [h1])
      · rcases ih false c h1 with h2 | h2
        · exact Or.inl h2
        · exact Or.inr (List.mem_cons_of_mem d h2)

/-- After a space has just been emitted, the rest of the collapsed output
starts with a non-space character. -/
theorem collapseGo_headNonWs :
    ∀ l : List Char, headNonWs (collapseGo true l) = true := by
  intro l
  induction l with
  | nil => simp [collapseGo, headNonWs]
  | cons d rest ih =>
    simp only [collapseGo]
    by_cases hd : pyIsSpace d
    · simpa [hd] using ih
    · simp [hd, headNonWs]

/-- Prepending a character that does not extend a whitespace run keeps the
no-run property. -/
theorem hasWsRun_cons_false (c : Char) (l : List Char)
    (h1 : pyIsSpace c = false ∨ headNonWs l = true)
    (h2 : hasWsRun l = false) : hasWsRun (c :: l) = false := by
  cases l with
  | nil => simp [hasWsRun]
  | cons d rest =>
    simp only [hasWsRun, Bool.or_eq_false_iff, Bool.and_eq_false_iff]
    refine ⟨?_, h2⟩
    rcases h1 with h1 | h1
    · exact Or.inl h1
    · simp only [headNonWs, Bool.not_eq_true'] at h1
      exact Or.inr h1

/-- The collapsed output contains no whitespace run. -/
theorem collapseGo_noRun :
    ∀ (l : List Char) (b : Bool), hasWsRun (collapseGo b l) = false := by
  intro l
  induction l with
  | nil => intro b; simp [collapseGo, hasWsRun]
  | cons d rest ih =>
    intro b
    simp only [collapseGo]
    by_cases hd : pyIsSpace d
    · simp only [hd, if_true]
      cases b with
      | true => exact ih true
      | false =>
        exact hasWsRun_cons_false ' ' _ (Or.inr (collapseGo_headNonWs rest))
          (ih true)
    · simp only [hd, if_false]
      exact hasWsRun_cons_false d _ (Or.inl (by simp [hd])) (ih false)

/-- Every whitespace character of the collapsed output is a plain space. -/
theorem collapseGo_wsSpace :
    ∀ (l : List Char) (b : Bool) (c : Char),
      c ∈ collapseGo b l → pyIsSpace c = true → c = ' ' := by
  intro l
  induction l with
  | nil => intro b c h; cases b <;> simp [collapseGo] at h
  | cons d rest ih =>
    intro b c h hws
    simp only [collapseGo] at h
    by_cases hd : pyIsSpace d
    · rw [if_pos hd] at h
      cases b with
      | true => exact ih true c (by simpa using h) hws
      | false =>
        simp only [Bool.false_eq_true, if_false, List.mem_cons] at h
        rcases h with h1 | h1
        · exact h1
        · exact ih true c h1 hws
    · rw [if_neg hd] at h
      rcases List.mem_cons.mp h with h1 | h1
      · subst h1; simp [hws] at hd
      · exact ih false c h1 hws

/-- The no-run property passes to the tail. -/
theorem hasWsRun_tail (c : Char) (l : List Char)
    (h : hasWsRun (c :: l) = false) : hasWsRun l = false := by
  cases l with
  | nil => simp [hasWsRun]
  | cons d rest =>
    simp only [hasWsRun, Bool.or_eq_false_iff] at h
    exact h.2

/-- `dropWhile` preserves the no-run property. -/
theorem hasWsRun_dropWhile (p : Char → Bool) :
    ∀ l : List Char, hasWsRun l = false →
      hasWsRun (l.dropWhile p) = false := by
  intro l
  induction l with
  | nil => intro h; simpa using h
  | cons c rest ih =>
    intro h
    by_cases hc : p c
    · rw [List.dropWhile_cons_of_pos hc]
      exact ih (hasWsRun_tail c rest h)
    · rwa [List.dropWhile_cons_of_neg hc]

/-- `dropWhile` yields a suffix. -/
theorem dropWhile_suffix (p : Char → Bool) :
    ∀ l : List Char, (l.dropWhile p) <:+ l := by
  intro l
  induction l with
  | nil => simp
  | cons c rest ih =>
    by_cases hc : p c
    · rw [List.dropWhile_cons_of_pos hc]
      exact ih.trans (List.suffix_cons c rest)
    · rw [List.dropWhile_cons_of_neg hc]

/-- A nonempty trail-trimmed list starts with the head of the input. -/
theorem dropTrailWs_head (l : List Char) (d : Char) (t : List Char)
    (h : dropTrailWs l = d :: t) : ∃ t2, l = d :: t2 := by
  cases l with
  | nil => simp [dropTrailWs] at h
  | cons c rest =>
    simp only [dropTrailWs] at h
    split at h
    · simp at h
    · exact ⟨rest, by rw [(List.cons.injEq _ _ _ _).mp h |>.1]⟩

/-- Removing trailing whitespace preserves the no-run property. -/
theorem hasWsRun_dropTrail :
    ∀ l : List Char, hasWsRun l = false →
      hasWsRun (dropTrailWs l) = false := by
  intro l
  induction l with
  | nil => intro h; simpa using h
  | cons c rest ih =>
    intro h
    simp only [dropTrailWs]
    split
    · simp [hasWsRun]
    · have hrest := ih (hasWsRun_tail c rest h)
      refine hasWsRun_cons_false c _ ?_ hrest
      cases hdt : dropTrailWs rest with
      | nil => exact Or.inr (by simp [headNonWs])
      | cons d t =>
        obtain ⟨t2, ht2⟩ := dropTrailWs_head rest d t hdt
        subst ht2
        simp only [hasWsRun, Bool.or_eq_false_iff, Bool.and_eq_false_iff] at h
        rcases h.1 with h1 | h1
        · exact Or.inl h1
        · exact Or.inr (by simp [headNonWs, h1])

/-- Removing trailing whitespace yields a sublist. -/
theorem dropTrailWs_sublist : ∀ l : List Char, (dropTrailWs l).Sublist l := by
  intro l
  induction l with
  | nil => simp [dropTrailWs]
  | cons c rest ih =>
    simp only [dropTrailWs]
    split
    · exact List.nil_sublist _
    · exact ih.cons₂ c

/-- Stripping preserves the no-run property. -/
theorem hasWsRun_pyStripL (l : List Char) (h : hasWsRun l = false) :
    hasWsRun (pyStripL l) = false :=
  hasWsRun_dropTrail _ (hasWsRun_dropWhile pyIsSpace l h)

/-- Stripping yields a sublist. -/
theorem pyStripL_sublist (l : List Char) : (pyStripL l).Sublist l :=
  (dropTrailWs_sublist _).trans (dropWhile_suffix pyIsSpace l).sublist

/-- The final character substitution is the identity on lists whose
characters are all kept. -/
theorem mapKeep_id :
    ∀ l : List Char, (∀ c ∈ l, keepChar c = true) →
      l.map (fun c => if keepChar c then c else ' ') = l := by
  intro l
  induction l with
  | nil => intro _; simp
  | cons c rest ih =>
    intro h
    simp only [List.map_cons]
    rw [if_pos (h c (List.mem_cons_self c rest)),
      ih (fun d hd => h d (List.mem_cons_of_mem c hd))]

/-- Equation lemma for `dropTrailWs` on a cons cell. -/
theorem dropTrailWs_cons (c : Char) (rest : List Char) :
    dropTrailWs (c :: rest) =
      if dropTrailWs rest = [] && pyIsSpace c then []
      else c :: dropTrailWs rest := rfl

/-- Leading-whitespace removal leaves a non-space head. -/
theorem dropWhile_headNonWs :
    ∀ l : List Char, headNonWs (l.dropWhile pyIsSpace) = true := by
  intro l
  induction l with
  | nil => simp [headNonWs]
  | cons c rest ih =>
    by_cases hc : pyIsSpace c
    · rw [List.dropWhile_cons_of_pos hc]; exact ih
    · rw [List.dropWhile_cons_of_neg hc]; simpa [headNonWs] using hc

/-- A list with a non-space head is unchanged by `dropWhile pyIsSpace`. -/
theorem dropWhile_of_headNonWs (l : List Char) (h : headNonWs l = true) :
    l.dropWhile pyIsSpace = l := by
  cases l with
  | nil => simp
  | cons c rest =>
    simp only [headNonWs, Bool.not_eq_true'] at h
    rw [List.dropWhile_cons_of_neg (by simp [h])]

/-- Trail trimming preserves a non-space head. -/
theorem dropTrail_headNonWs (l : List Char) (h : headNonWs l = true) :
    headNonWs (dropTrailWs l) = true := by
  cases hdt : dropTrailWs l with
  | nil => simp [headNonWs]
  | cons d t =>
    obtain ⟨t2, ht2⟩ := dropTrailWs_head l d t hdt
    subst ht2
    simpa [headNonWs] using h

/-- Trail trimming is idempotent. -/
theorem dropTrail_idem :
    ∀ l : List Char, dropTrailWs (dropTrailWs l) = dropTrailWs l := by
  intro l
  induction l with
  | nil => simp [dropTrailWs]
  | cons c rest ih =>
    rw [dropTrailWs_cons]
    split
    · simp [dropTrailWs]
    · rename_i h
      rw [dropTrailWs_cons, ih, if_neg h]

/-- Stripping is idempotent. -/
theorem pyStripL_idem (l : List Char) : pyStripL (pyStripL l) = pyStripL l := by
  have h1 : headNonWs (pyStripL l) = true :=
    dropTrail_headNonWs _ (dropWhile_headNonWs l)
  show dropTrailWs ((pyStripL l).dropWhile pyIsSpace) = pyStripL l
  rw [dropWhile_of_headNonWs _ h1]
  exact dropTrail_idem _

/-- A collapsed, whitespace-normal list is a fixed point of `collapseGo`. -/
theorem collapseGo_id :
    ∀ (l : List Char) (b : Bool), hasWsRun l = false →
      (∀ c ∈ l, pyIsSpace c = true → c = ' ') →
      (b = true → headNonWs l = true) →
      collapseGo b l = l := by
  intro l
  induction l with
  | nil => intro b _ _ _; cases b <;> rfl
  | cons d rest ih =>
    intro b hrun hws hhead
    simp only [collapseGo]
    by_cases hd : pyIsSpace d
    · rw [if_pos hd]
      have hd2 : d = ' ' := hws d (List.mem_cons_self d rest) hd
      have hb : b = false := by
        cases b with
        | false => rfl
        | true =>
          have h3 := hhead rfl
          simp [headNonWs, hd] at h3
      subst hb
      have hhrest : headNonWs rest = true := by
        cases rest with
        | nil => rfl
        | cons e t =>
          simp only [hasWsRun, Bool.or_eq_false_iff,
            Bool.and_eq_false_iff] at hrun
          rcases hrun.1 with h4 | h4
          · rw [hd] at h4; exact Bool.noConfusion h4
          · simp [headNonWs, h4]
      have hrest := ih true (hasWsRun_tail d rest hrun)
        (fun c hc hw => hws c (List.mem_cons_of_mem d hc) hw)
        (fun _ => hhrest)
      simp only [Bool.false_eq_true, if_false, hrest, hd2]
    · rw [if_neg hd]
      rw [ih false (hasWsRun_tail d rest hrun)
        (fun c hc hw => hws c (List.mem_cons_of_mem d hc) hw)
        (fun hb => Bool.noConfusion hb)]

/-- The stripped collapse of any list is a fixed point of `collapseWs`. -/
theorem collapseWs_pyStripL_collapse (l : List Char) :
    collapseWs (pyStripL (collapseWs l)) = pyStripL (collapseWs l) := by
  apply collapseGo_id
  · exact hasWsRun_pyStripL _ (collapseGo_noRun l false)
  · intro c hc hws
    exact collapseGo_wsSpace l false c ((pyStripL_sublist _).subset hc) hws
  · intro hb; exact Bool.noConfusion hb

/-- C1 (counterexample): the claim that every normalized text is free of
whitespace runs fails on the input `"a @@ b"`: the two `@` characters
survive every removal rule and are replaced by spaces only after the final
whitespace collapse, leaving `"a    b"`. -/
theorem C1_counterexample :
    hasWsRun (normalize_text "a @@ b").data = true := by decide

/-- C1 (amended): for every input all of whose characters are kept by the
final character substitution (word characters, whitespace, Hangul syllables
and `.,!?`), the normalized text contains no run of two or more consecutive
whitespace characters. -/
theorem C1_no_ws_run_of_clean_input (x : String)
    (h : ∀ c ∈ x.data, keepChar c = true) :
    hasWsRun (normalize_text x).data = false := by
  have hkeep3 : ∀ c ∈ collapseWs (applyRules (pyStripL (collapseWs x.data))),
      keepChar c = true := by
    intro c hc
    rcases collapseGo_mem _ _ c hc with h1 | h1
    · rw [h1]; decide
    · have h2 := (applyRules_sublist _).subset h1
      have h3 := (pyStripL_sublist _).subset h2
      rcases collapseGo_mem _ _ c h3 with h4 | h4
      · rw [h4]; decide
      · exact h c h4
  simp only [normalize_text, normalizeL]
  rw [mapKeep_id _ hkeep3]
  exact hasWsRun_pyStripL _ (collapseGo_noRun _ false)

/-- C1 (witness): a concrete clean input for the amended statement. -/
theorem C1_witness :
    (∀ c ∈ ("안녕하세요 세상 여러분" : String).data, keepChar c = true) ∧
      hasWsRun (normalize_text "안녕하세요 세상 여러분").data = false :=
  ⟨by decide, C1_no_ws_run_of_clean_input "안녕하세요 세상 여러분" (by decide)⟩

/-- C4 (counterexample): the Text Normalizer is not idempotent.  On
`"AADD"` the rule `re.sub(r'AD', '', text)` removes the middle `"AD"` and
leaves a new `"AD"` (`normalize("AADD") = "AD"`), which a second
normalization removes (`normalize("AD") = ""`). -/
theorem C4_counterexample :
    normalize_text (normalize_text "AADD") ≠ normalize_text "AADD" := by
  decide

/-- C4 (amended): the normalizer is idempotent on inputs whose characters
all survive the final character substitution and on which the removal
catalog finds nothing to delete; the counterexample `"AADD"` shows the
unrestricted claim false. -/
theorem C4_idempotent_of_fixed (x : String)
    (hAllowed : ∀ c ∈ x.data, keepChar c = true)
    (hRules : applyRules (pyStripL (collapseWs x.data)) =
      pyStripL (collapseWs x.data)) :
    normalize_text (normalize_text x) = normalize_text x := by
  have hpre_keep : ∀ c ∈ pyStripL (collapseWs x.data), keepChar c = true := by
    intro c hc
    rcases collapseGo_mem _ _ c ((pyStripL_sublist _).subset hc) with h1 | h1
    · rw [h1]; decide
    · exact hAllowed c h1
  have hstrip_pre : pyStripL (pyStripL (collapseWs x.data)) =
      pyStripL (collapseWs x.data) := pyStripL_idem _
  have hfix : normalizeL x.data = pyStripL (collapseWs x.data) := by
    simp only [normalizeL]
    rw [hRules, collapseWs_pyStripL_collapse, mapKeep_id _ hpre_keep]
    exact hstrip_pre
  have hfix2 : normalizeL (pyStripL (collapseWs x.data)) =
      pyStripL (collapseWs x.data) := by
    simp only [normalizeL]
    rw [collapseWs_pyStripL_collapse, hstrip_pre, hRules,
      collapseWs_pyStripL_collapse, mapKeep_id _ hpre_keep, hstrip_pre]
  have hX : normalize_text x = String.mk (pyStripL (collapseWs x.data)) := by
    rw [show normalize_text x = String.mk (normalizeL x.data) from rfl, hfix]
  calc normalize_text (normalize_text x)
      = String.mk (normalizeL (normalize_text x).data) := rfl
    _ = String.mk (normalizeL (pyStripL (collapseWs x.data))) := by
        rw [hX]
    _ = String.mk (pyStripL (collapseWs x.data)) := by rw [hfix2]
    _ = normalize_text x := by rw [hX]

/-- C4 (witness): a concrete input satisfying the amended hypotheses. -/
theorem C4_witness :
    ((∀ c ∈ ("안녕하세요 세상" : String).data, keepChar c = true) ∧
      applyRules (pyStripL (collapseWs ("안녕하세요 세상" : String).data)) =
        pyStripL (collapseWs ("안녕하세요 세상" : String).data)) ∧
      normalize_text (normalize_text "안녕하세요 세상") =
        normalize_text "안녕하세요 세상" :=
  ⟨⟨by decide, by decide⟩,
    C4_idempotent_of_fixed "안녕하세요 세상" (by decide) (by decide)⟩

/-- The character data of a constructed string. -/
theorem data_mk (l : List Char) : (String.mk l).data = l := rfl

/-- Normalized text is already stripped (normalization ends with a strip). -/
theorem pyStrip_normalize (t : String) :
    pyStrip (normalize_text t) = normalize_text t := by
  have h : pyStripL (normalizeL t.data) = normalizeL t.data := by
    simp only [normalizeL]
    exact pyStripL_idem _
  simp only [pyStrip, normalize_text, data_mk]
  rw [h]

/-- C3: for every input whose text is shorter than 50 characters after
normalization, `summarize_text` returns the InsufficientInput sentinel
exactly, as an ordinary result (the short-raw-input gate and the
post-normalization gate of `simple_summarize` both yield the sentinel). -/
theorem C3_insufficient_input (text : String) (cnt : Nat)
    (h : (normalize_text text).length < 50) :
    summarize_text text cnt = "요약할 내용이 부족합니다." := by
  unfold summarize_text
  split
  · rfl
  · unfold simple_summarize
    have hc : normalize_text text = "" ∨
        (pyStrip (normalize_text text)).length < 50 :=
      Or.inr (by rw [pyStrip_normalize]; exact h)
    rw [if_pos hc]

/-- C3 (witness): a concrete short input. -/
theorem C3_witness :
    (normalize_text "짧은 글").length < 50 ∧
      summarize_text "짧은 글" 3 = "요약할 내용이 부족합니다." :=
  ⟨by decide, C3_insufficient_input "짧은 글" 3 (by decide)⟩

/-- C5: when the filtered verb-ending-aware split survives with zero
sentences, segmentation uses the plain-period fallback split of the
unfiltered text; when that also yields zero fragments, `simple_summarize`
returns the "cannot segment" sentinel instead of raising. -/
theorem C5_segmentation_fallback (text : String) (m : Nat)
    (hgate : ¬(text = "" ∨ (pyStrip text).length < 50))
    (hfilt : filteredSentences text = [])
    (hfall : fallbackSentences text = []) :
    usedSentences text = fallbackSentences text ∧
      simple_summarize text m = "문장을 분리할 수 없습니다." := by
  have hused : usedSentences text = [] := by
    unfold usedSentences
    rw [if_pos hfilt]
    exact hfall
  constructor
  · unfold usedSentences
    rw [if_pos hfilt]
  · unfold simple_summarize
    rw [if_neg hgate]
    simp only [hused]
    rfl

/-- C5 (witness): sixty periods pass the length gate yet produce no
sentence under either strategy. -/
theorem C5_witness :
    (¬(String.mk (List.replicate 60 '.') = "" ∨
        (pyStrip (String.mk (List.replicate 60 '.'))).length < 50) ∧
      filteredSentences (String.mk (List.replicate 60 '.')) = [] ∧
      fallbackSentences (String.mk (List.replicate 60 '.')) = []) ∧
    (usedSentences (String.mk (List.replicate 60 '.')) =
        fallbackSentences (String.mk (List.replicate 60 '.')) ∧
      simple_summarize (String.mk (List.replicate 60 '.')) 3 =
        "문장을 분리할 수 없습니다.") :=
  ⟨⟨by decide, by decide, by decide⟩,
    C5_segmentation_fallback _ 3 (by decide) (by decide) (by decide)⟩

/-- The final selection loop only ever walks forward through the surviving
sentences, so its output is a sublist of them. -/
theorem pickAux_sublist (tops : List String) (maxS : Nat) :
    ∀ (l : List String) (cnt : Nat), (pickAux tops maxS l cnt).Sublist l := by
  intro l
  induction l with
  | nil => intro cnt; simp [pickAux]
  | cons s rest ih =>
    intro cnt
    simp only [pickAux]
    split
    · split
      · exact (List.nil_sublist rest).cons₂ s
      · exact (ih (cnt + 1)).cons₂ s
    · exact (ih cnt).cons s

/-- C7: the selected summary sentences form a sublist of the surviving
sentence sequence: for any two selected sentences with origin indices
`i < j`, the one with index `i` appears strictly before the one with index
`j` in the assembled summary — selection never reorders sentences. -/
theorem C7_order_preservation (sents tops : List String) (maxS : Nat) :
    (pickInOrder sents tops maxS).Sublist sents :=
  pickAux_sublist tops maxS sents 0

unseal Rat.add Rat.mul Rat.inv Rat.sub in
/-- C2 (counterexample): on a text where `정치` occurs exactly 5 times
(unboosted weight 5) and `서울시청` exactly 3 times (boosted weight 4.5),
`extract_keywords` ranks `정치` first — `서울시청` is NOT above `정치`,
because 4.5 < 5. -/
theorem C2_counterexample :
    ((keywordTokens
        "정치 정치 정치 정치 정치 서울시청 서울시청 서울시청").count "정치" = 5 ∧
      (keywordTokens
        "정치 정치 정치 정치 정치 서울시청 서울시청 서울시청").count "서울시청" = 3) ∧
    extract_keywords "정치 정치 정치 정치 정치 서울시청 서울시청 서울시청" 5 =
      ["정치", "서울시청"] ∧
    ¬ List.indexOf "서울시청"
        (extract_keywords
          "정치 정치 정치 정치 정치 서울시청 서울시청 서울시청" 5) <
      List.indexOf "정치"
        (extract_keywords
          "정치 정치 정치 정치 정치 서울시청 서울시청 서울시청" 5) := by
  decide

unseal Rat.add Rat.mul Rat.inv Rat.sub in
/-- C2 (amended): in that scenario the boost lifts `서울시청` from 3 to
4.5, which stays below 5, so `rank_keywords` returns `정치` ranked above
`서울시청` — both still appear, in that order. -/
theorem C2_boost_ranking :
    weightedFreq "정치 정치 정치 정치 정치 서울시청 서울시청 서울시청"
        "서울시청" = 9 / 2 ∧
    weightedFreq "정치 정치 정치 정치 정치 서울시청 서울시청 서울시청"
        "정치" = 5 ∧
    extract_keywords "정치 정치 정치 정치 정치 서울시청 서울시청 서울시청" 5 =
      ["정치", "서울시청"] := by
  decide

/-- Looking up the key just stored. -/
theorem lookupAssoc_insert_self {α : Type} (l : List (String × α)) (k : String)
    (v : α) : lookupAssoc (insertAssoc l k v) k = some v := by
  induction l with
  | nil => simp [insertAssoc, lookupAssoc]
  | cons p r ih =>
    obtain ⟨a, b⟩ := p
    simp only [insertAssoc]
    by_cases h : a = k
    · simp [lookupAssoc, h]
    · rw [if_neg h]
      simp only [lookupAssoc]
      rw [if_neg h, ih]

/-- Storing one key leaves the other lookups unchanged. -/
theorem lookupAssoc_insert_other {α : Type} (l : List (String × α))
    (k k2 : String) (v : α) (hne : k2 ≠ k) :
    lookupAssoc (insertAssoc l k v) k2 = lookupAssoc l k2 := by
  induction l with
  | nil =>
    simp only [insertAssoc, lookupAssoc]
    rw [if_neg (fun h => hne h.symm)]
  | cons p r ih =>
    obtain ⟨a, b⟩ := p
    simp only [insertAssoc]
    by_cases h : a = k
    · subst h
      rw [if_pos rfl]
      simp only [lookupAssoc]
      rw [if_neg (fun h2 => hne h2.symm), if_neg (fun h2 => hne h2.symm)]
    · rw [if_neg h]
      simp only [lookupAssoc]
      by_cases h2 : a = k2
      · rw [if_pos h2, if_pos h2]
      · rw [if_neg h2, if_neg h2, ih]

/-- The key sequence after a store: unchanged for an existing key, appended
for a new one. -/
theorem insertAssoc_keys {α : Type} (l : List (String × α)) (k : String)
    (v : α) :
    (insertAssoc l k v).map Prod.fst =
      if k ∈ l.map Prod.fst then l.map Prod.fst
      else l.map Prod.fst ++ [k] := by
  induction l with
  | nil => simp [insertAssoc]
  | cons p r ih =>
    obtain ⟨a, b⟩ := p
    simp only [insertAssoc]
    by_cases h : a = k
    · subst h
      simp
    · rw [if_neg h]
      simp only [List.map_cons, ih]
      by_cases h2 : k ∈ r.map Prod.fst
      · rw [if_pos h2, if_pos (by simp [h2])]
      · have hne2 : ¬ k ∈ (a :: r.map Prod.fst) := by
          simp only [List.mem_cons]
          rintro (h3 | h3)
          · exact h h3.symm
          · exact h2 h3
        rw [if_neg h2, if_neg hne2, List.cons_append]

/-- A store preserves distinctness of the keys. -/
theorem insertAssoc_keys_nodup {α : Type} (l : List (String × α)) (k : String)
    (v : α) (h : (l.map Prod.fst).Nodup) :
    ((insertAssoc l k v).map Prod.fst).Nodup := by
  rw [insertAssoc_keys]
  split
  · exact h
  · rename_i hk
    rw [← List.concat_eq_append]
    exact List.Nodup.concat hk h

/-- Membership in the keys after a store. -/
theorem insertAssoc_keys_mem {α : Type} (l : List (String × α))
    (k k2 : String) (v : α) :
    k2 ∈ (insertAssoc l k v).map Prod.fst ↔
      k2 ∈ l.map Prod.fst ∨ k2 = k := by
  rw [insertAssoc_keys]
  split
  · rename_i hk
    constructor
    · exact Or.inl
    · rintro (h | rfl)
      · exact h
      · exact hk
  · simp [List.mem_append]

/-- With distinct keys, membership of a pair determines the lookup. -/
theorem lookup_of_mem_nodup {α : Type} (l : List (String × α)) (k : String)
    (v : α) (hmem : (k, v) ∈ l) (hnd : (l.map Prod.fst).Nodup) :
    lookupAssoc l k = some v := by
  induction l with
  | nil => simp at hmem
  | cons p r ih =>
    obtain ⟨a, b⟩ := p
    simp only [lookupAssoc]
    rcases List.mem_cons.mp hmem with h1 | h1
    · injection h1 with h3 h4
      subst h3
      subst h4
      rw [if_pos rfl]
    · have hk : k ∈ r.map Prod.fst :=
        List.mem_map.mpr ⟨(k, v), h1, rfl⟩
      have hnd2 : a ∉ r.map Prod.fst ∧ (r.map Prod.fst).Nodup :=
        List.nodup_cons.mp (by simpa using hnd)
      have hane : a ≠ k := by
        intro h2
        subst h2
        exact hnd2.1 hk
      rw [if_neg hane]
      exact ih h1 hnd2.2

/-- A fold of key-nodup-preserving updates preserves key distinctness. -/
theorem foldl_keys_nodup {α : Type}
    (f : List (String × α) → String → List (String × α))
    (hf : ∀ acc w, (acc.map Prod.fst).Nodup → ((f acc w).map Prod.fst).Nodup) :
    ∀ (ts : List String) (acc : List (String × α)),
      (acc.map Prod.fst).Nodup → ((ts.foldl f acc).map Prod.fst).Nodup := by
  intro ts
  induction ts with
  | nil => intro acc h; simpa using h
  | cons w ws ih =>
    intro acc h
    rw [List.foldl_cons]
    exact ih _ (hf acc w h)

/-- The keyword frequency dictionary has distinct keys. -/
theorem keywordFreq_keys_nodup (text : String) :
    ((keywordFreq text).map Prod.fst).Nodup := by
  have h := foldl_keys_nodup
    (fun acc w =>
      if 2 ≤ w.length ∧ ¬ w ∈ stopWordsKeywords then bumpAssocQ acc w else acc)
    (fun acc w hw => by
      show (List.map Prod.fst
        (if 2 ≤ w.length ∧ ¬ w ∈ stopWordsKeywords then bumpAssocQ acc w
         else acc)).Nodup
      by_cases hcond : 2 ≤ w.length ∧ ¬ w ∈ stopWordsKeywords
      · rw [if_pos hcond]; exact insertAssoc_keys_nodup _ _ _ hw
      · rw [if_neg hcond]; exact hw)
    (keywordTokens text) [] (by simp)
  exact h

/-- The length bonus keeps the key sequence of the dictionary. -/
theorem boostedFreq_keys (text : String) :
    (boostedFreq text).map Prod.fst = (keywordFreq text).map Prod.fst := by
  unfold boostedFreq
  rw [List.map_map]
  apply List.map_congr_left
  intro p _
  show (if 4 ≤ p.1.length then (p.1, p.2 * (3 / 2 : ℚ)) else p).1 = p.1
  split <;> rfl

/-- Stable descending insertion permutes the extended list. -/
theorem insDesc_perm (x : String × ℚ) :
    ∀ l : List (String × ℚ), (insDesc x l).Perm (x :: l) := by
  intro l
  induction l with
  | nil => simp [insDesc]
  | cons y ys ih =>
    simp only [insDesc]
    split
    · exact List.Perm.refl _
    · exact (ih.cons y).trans (List.Perm.swap x y ys)

/-- The stable descending sort permutes its input. -/
theorem sortByValDesc_perm :
    ∀ l : List (String × ℚ), (sortByValDesc l).Perm l := by
  intro l
  induction l with
  | nil => simp [sortByValDesc]
  | cons x xs ih =>
    show (insDesc x (sortByValDesc xs)).Perm (x :: xs)
    exact (insDesc_perm x _).trans (ih.cons x)

/-- Inserting an element moves it past strictly greater values only, so the
elements of any fixed value keep their order: the filter at value `c`
commutes with the insertion. -/
theorem filter_insDesc (x : String × ℚ) (c : ℚ) :
    ∀ l : List (String × ℚ),
      (insDesc x l).filter (fun z => decide (z.2 = c)) =
        if x.2 = c then x :: l.filter (fun z => decide (z.2 = c))
        else l.filter (fun z => decide (z.2 = c)) := by
  intro l
  induction l with
  | nil =>
    simp only [insDesc]
    by_cases hx : x.2 = c
    · rw [if_pos hx]
      simp [List.filter, hx]
    · rw [if_neg hx]
      simp [List.filter, hx]
  | cons y ys ih =>
    simp only [insDesc]
    split
    · rename_i hle
      by_cases hx : x.2 = c
      · rw [if_pos hx]
        simp [List.filter_cons, hx]
      · rw [if_neg hx]
        simp [List.filter_cons, hx]
    · rename_i hgt
      by_cases hx : x.2 = c
      · have hy : ¬ (y.2 = c) := fun h2 => hgt (by rw [h2, ← hx])
        rw [if_pos hx]
        simp [List.filter_cons, hy, ih, hx]
      · rw [if_neg hx]
        simp [List.filter_cons, ih, hx]

/-- Stability of the descending sort: the subsequence of entries carrying a
fixed value is exactly the input's subsequence of that value, in order. -/
theorem filter_sortByValDesc (c : ℚ) :
    ∀ l : List (String × ℚ),
      (sortByValDesc l).filter (fun z => decide (z.2 = c)) =
        l.filter (fun z => decide (z.2 = c)) := by
  intro l
  induction l with
  | nil => rfl
  | cons x xs ih =>
    show ((insDesc x (sortByValDesc xs)).filter _) = _
    rw [filter_insDesc, List.filter_cons]
    by_cases hx : x.2 = c
    · rw [if_pos hx, ih]
      simp [hx]
    · rw [if_neg hx, ih]
      simp [hx]

/-- In a duplicate-free list, everything placed before a member of the
`k`-prefix is itself in the `k`-prefix. -/
theorem take_mem_of_before {α : Type} [DecidableEq α] :
    ∀ (s : List α) (k : Nat) (a b : α), s.Nodup →
      ([a, b]).Sublist s → b ∈ s.take k → a ∈ s.take k := by
  intro s
  induction s with
  | nil =>
    intro k a b _ hs _
    exact absurd (hs.subset (by simp)) (List.not_mem_nil a)
  | cons x r ih =>
    intro k a b hnd hs hb
    cases k with
    | zero => simp at hb
    | succ k2 =>
      rw [List.take_succ_cons] at hb ⊢
      cases hs with
      | cons _ hs2 =>
        rcases List.mem_cons.mp hb with hb1 | hb1
        · exfalso
          have hbr : b ∈ r := hs2.subset (by simp)
          rw [hb1] at hbr
          exact (List.nodup_cons.mp hnd).1 hbr
        · exact List.mem_cons_of_mem x
            (ih k2 a b (List.nodup_cons.mp hnd).2 hs2 hb1)
      | cons₂ _ hs2 => exact List.mem_cons_self _ _

/-- Lookup after the score-building fold: members of the list map to their
computed value, other keys fall through to the initial accumulator. -/
theorem scores_fold_lookup (f : String → ℚ) :
    ∀ (l : List String) (acc : List (String × ℚ)) (s : String),
      lookupAssoc (l.foldl (fun acc t => insertAssoc acc t (f t)) acc) s =
        if s ∈ l then some (f s) else lookupAssoc acc s := by
  intro l
  induction l with
  | nil => intro acc s; simp
  | cons x xs ih =>
    intro acc s
    rw [List.foldl_cons, ih]
    by_cases hx : s ∈ xs
    · rw [if_pos hx, if_pos (List.mem_cons_of_mem x hx)]
    · by_cases hsx : s = x
      · subst hsx
        rw [if_neg hx, if_pos (List.mem_cons_self s xs)]
        exact lookupAssoc_insert_self acc s (f s)
      · rw [if_neg hx, if_neg (by simp [hsx, hx]),
          lookupAssoc_insert_other acc x s (f x) hsx]

/-- The score dictionary maps every surviving sentence to its computed
score. -/
theorem sentenceScores_lookup (sents : List String) (s : String)
    (hs : s ∈ sents) :
    lookupAssoc (sentenceScores sents) s =
      some (scoreSentence sents (wordFreqOf (joinSpace sents)) s) := by
  have h := scores_fold_lookup
    (fun t => scoreSentence sents (wordFreqOf (joinSpace sents)) t) sents [] s
  rw [if_pos hs] at h
  exact h

/-- The score dictionary has distinct keys. -/
theorem sentenceScores_keys_nodup (sents : List String) :
    ((sentenceScores sents).map Prod.fst).Nodup := by
  have h := foldl_keys_nodup
    (fun acc t =>
      insertAssoc acc t (scoreSentence sents (wordFreqOf (joinSpace sents)) t))
    (fun acc w hw => insertAssoc_keys_nodup _ _ _ hw) sents [] (by simp)
  exact h

/-- Key membership after the score-building fold. -/
theorem scores_fold_keys_mem (f : String → ℚ) :
    ∀ (l : List String) (acc : List (String × ℚ)) (s : String),
      (s ∈ (l.foldl (fun acc t => insertAssoc acc t (f t)) acc).map Prod.fst ↔
        s ∈ acc.map Prod.fst ∨ s ∈ l) := by
  intro l
  induction l with
  | nil => intro acc s; simp
  | cons x xs ih =>
    intro acc s
    rw [List.foldl_cons, ih, insertAssoc_keys_mem]
    constructor
    · rintro ((h | h) | h)
      · exact Or.inl h
      · exact Or.inr (by simp [h])
      · exact Or.inr (List.mem_cons_of_mem x h)
    · rintro (h | h)
      · exact Or.inl (Or.inl h)
      · rcases List.mem_cons.mp h with h1 | h1
        · exact Or.inl (Or.inr h1)
        · exact Or.inr h1

/-- In a duplicate-free sentence list, the first index of the `i`-th
element is `i`. -/
theorem firstIdx_get :
    ∀ (l : List String) (i : Nat) (hi : i < l.length), l.Nodup →
      firstIdx l (l.get ⟨i, hi⟩) = i := by
  intro l
  induction l with
  | nil => intro i hi _; simp at hi
  | cons a r ih =>
    intro i hi hnd
    cases i with
    | zero => simp [firstIdx]
    | succ j =>
      have hj : j < r.length := by simpa using hi
      have hget : (a :: r).get ⟨j + 1, hi⟩ = r.get ⟨j, hj⟩ := rfl
      rw [hget]
      simp only [firstIdx]
      have hne : a ≠ r.get ⟨j, hj⟩ := by
        intro h
        have hmem : a ∈ r := h ▸ List.get_mem r j hj
        exact (List.nodup_cons.mp hnd).1 hmem
      rw [if_neg hne, ih j hj (List.nodup_cons.mp hnd).2]

/-- C6: for every input text and positive `top_k`, `extract_keywords`
returns at most `top_k` terms, every returned term has final (possibly
boosted) weighted frequency at least 2 — so singleton terms never appear —
and the empty text yields the empty list rather than an error. -/
theorem C6_keyword_guarantees (text : String) (k : Nat) (_hk : 0 < k) :
    (extract_keywords text k).length ≤ k ∧
    (∀ w ∈ extract_keywords text k, 2 ≤ weightedFreq text w) ∧
    extract_keywords "" k = [] := by
  refine ⟨?_, ?_, rfl⟩
  · unfold extract_keywords
    split
    · simp
    · rw [List.length_map]
      exact le_trans (List.length_filter_le _ _) (List.length_take_le _ _)
  · intro w hw
    unfold extract_keywords at hw
    split at hw
    · simp at hw
    · rcases List.mem_map.mp hw with ⟨p, hp, rfl⟩
      have hfil := List.mem_filter.mp hp
      have hge : (2 : ℚ) ≤ p.2 := by
        have h2 := hfil.2
        simpa using h2
      have hmem : p ∈ boostedFreq text :=
        (sortByValDesc_perm _).mem_iff.mp (List.mem_of_mem_take hfil.1)
      have hnd : ((boostedFreq text).map Prod.fst).Nodup := by
        rw [boostedFreq_keys]
        exact keywordFreq_keys_nodup text
      have hlk : lookupAssoc (boostedFreq text) p.1 = some p.2 :=
        lookup_of_mem_nodup _ _ _ hmem hnd
      unfold weightedFreq
      rw [hlk]
      exact hge

/-- C6 (witness): a concrete text and `top_k`. -/
theorem C6_witness :
    0 < 5 ∧
      ((extract_keywords "정치 정치 정치 정치 정치 서울시청 서울시청 서울시청"
          5).length ≤ 5 ∧
        (∀ w ∈ extract_keywords
            "정치 정치 정치 정치 정치 서울시청 서울시청 서울시청" 5,
          2 ≤ weightedFreq
            "정치 정치 정치 정치 정치 서울시청 서울시청 서울시청" w) ∧
        extract_keywords "" 5 = []) :=
  ⟨by decide, C6_keyword_guarantees
    "정치 정치 정치 정치 정치 서울시청 서울시청 서울시청" 5 (by decide)⟩

/-- C8: the descending sort of the score dictionary is stable — when two
entries carry equal scores, the one stored earlier (the sentence with the
smaller origin index) stays earlier; hence whenever the later one survives
the `take max_sentences` cut, the earlier one does too and its sentence is
among the selected top sentences. -/
theorem C8_tie_break_stability (sents : List String) (a b : String × ℚ)
    (k : Nat) (hab : ([a, b]).Sublist (sentenceScores sents))
    (heq : a.2 = b.2)
    (hb : b ∈ (sortByValDesc (sentenceScores sents)).take k) :
    a ∈ (sortByValDesc (sentenceScores sents)).take k ∧
      a.1 ∈ topSentences (sentenceScores sents) k := by
  have hpa : decide (a.2 = a.2) = true := by simp
  have hpb : decide (b.2 = a.2) = true := by simp [heq]
  have h1 : ([a, b]).Sublist
      ((sentenceScores sents).filter (fun z => decide (z.2 = a.2))) := by
    have h0 := hab.filter (fun z => decide (z.2 = a.2))
    simpa [List.filter_cons, hpa, hpb] using h0
  have h2 : ([a, b]).Sublist (sortByValDesc (sentenceScores sents)) := by
    rw [← filter_sortByValDesc a.2 (sentenceScores sents)] at h1
    exact h1.trans (List.filter_sublist _)
  have hnd : (sortByValDesc (sentenceScores sents)).Nodup :=
    ((sortByValDesc_perm _).nodup_iff).mpr
      (List.Nodup.of_map Prod.fst (sentenceScores_keys_nodup sents))
  have ha := take_mem_of_before _ k a b hnd h2 hb
  exact ⟨ha, List.mem_map_of_mem Prod.fst ha⟩

unseal Rat.add Rat.mul Rat.inv Rat.sub in
/-- C8 (witness): two distinct anagram sentences in the front 30% receive
the identical score `91/25`; with `max_sentences = 2` the later one is in
the cut, and the theorem places the earlier one before it. -/
theorem C8_witness :
    (([(("가나 다라", (91 : ℚ)/25)), (("다라 가나", (91 : ℚ)/25))]).Sublist
        (sentenceScores ["가나 다라", "다라 가나", "마바 사아", "자차 카타"]) ∧
      (("가나 다라", (91 : ℚ)/25)).2 = (("다라 가나", (91 : ℚ)/25)).2 ∧
      (("다라 가나", (91 : ℚ)/25)) ∈
        (sortByValDesc (sentenceScores
          ["가나 다라", "다라 가나", "마바 사아", "자차 카타"])).take 2) ∧
    ((("가나 다라", (91 : ℚ)/25)) ∈
        (sortByValDesc (sentenceScores
          ["가나 다라", "다라 가나", "마바 사아", "자차 카타"])).take 2 ∧
      "가나 다라" ∈ topSentences
        (sentenceScores ["가나 다라", "다라 가나", "마바 사아", "자차 카타"])
        2) :=
  ⟨⟨by decide, by decide, by decide⟩,
    C8_tie_break_stability ["가나 다라", "다라 가나", "마바 사아", "자차 카타"]
      ("가나 다라", (91 : ℚ)/25) ("다라 가나", (91 : ℚ)/25) 2
      (by decide) (by decide) (by decide)⟩

unseal Rat.add Rat.mul Rat.inv Rat.sub in
/-- C9 (counterexample): on a surviving list with a duplicated sentence the
dictionary entry is computed with the position weight of the FIRST
occurrence, so for the occurrence at index 4 of 5 (back 30%, weight 0.8)
the stored score does not equal the claimed formula at index 4: the stored
value is `8 * 1.3 * 0.7 = 182/25`, the formula gives `8 * 0.8 * 0.7`. -/
theorem C9_counterexample :
    lookupAssoc (sentenceScores
        ["가나 가나", "다라 마바", "사아 자차", "카타 파하", "가나 가나"])
        "가나 가나" ≠
      some ((baseScore (wordFreqOf (joinSpace
          ["가나 가나", "다라 마바", "사아 자차", "카타 파하", "가나 가나"]))
          "가나 가나" : ℚ) *
        posWeight 4
          (["가나 가나", "다라 마바", "사아 자차", "카타 파하",
            "가나 가나"] : List String).length *
        lenWeight "가나 가나") := by
  decide

/-- C9 (amended): in a surviving sentence list WITHOUT duplicate sentence
strings, the stored score of the sentence at index `i` of `N` equals the sum
of the global frequency-table counts of its terms times the position weight
(`1.3` if `i` is in the first 30%, `0.8` if in the last 30%, else `1.0`)
times the length weight (`1.2` for length in `[30,150]`, `0.7` below 20 or
above 200, else `1.0`); with duplicates the first occurrence's position is
used (see the counterexample and C10). -/
theorem C9_score_formula (sents : List String) (i : Nat)
    (hi : i < sents.length) (hnd : sents.Nodup) :
    lookupAssoc (sentenceScores sents) (sents.get ⟨i, hi⟩) =
      some ((baseScore (wordFreqOf (joinSpace sents))
          (sents.get ⟨i, hi⟩) : ℚ) *
        posWeight i sents.length * lenWeight (sents.get ⟨i, hi⟩)) := by
  have hmem : sents.get ⟨i, hi⟩ ∈ sents := List.get_mem _ _ _
  rw [sentenceScores_lookup sents _ hmem]
  unfold scoreSentence
  rw [firstIdx_get sents i hi hnd]

unseal Rat.add Rat.mul Rat.inv Rat.sub in
/-- C9 (witness): a concrete duplicate-free list, checked at index 0. -/
theorem C9_witness :
    ((0 : Nat) < (["가나 하늘", "다라 마바"] : List String).length ∧
      (["가나 하늘", "다라 마바"] : List String).Nodup) ∧
    lookupAssoc (sentenceScores ["가나 하늘", "다라 마바"])
        ((["가나 하늘", "다라 마바"] : List String).get ⟨0, by decide⟩) =
      some ((baseScore (wordFreqOf (joinSpace ["가나 하늘", "다라 마바"]))
          ((["가나 하늘", "다라 마바"] : List String).get ⟨0, by decide⟩) : ℚ) *
        posWeight 0 (["가나 하늘", "다라 마바"] : List String).length *
        lenWeight ((["가나 하늘", "다라 마바"] : List String).get
          ⟨0, by decide⟩)) :=
  ⟨⟨by decide, by decide⟩,
    C9_score_formula ["가나 하늘", "다라 마바"] 0 (by decide) (by decide)⟩

unseal Rat.add Rat.mul Rat.inv Rat.sub in
/-- C10 (counterexample): the scorer's dictionary does collapse duplicates
to one entry, but the assembled summary does NOT contain each distinct
sentence at most once: on a text whose three surviving sentences are the
same string, the single top entry is appended once per surviving
occurrence, so the duplicated sentence appears three times in the final
selection and in the summary string. -/
theorem C10_counterexample :
    (sentenceScores (usedSentences
        "파란 하늘이 정말 아름답다고 말한다. 파란 하늘이 정말 아름답다고 말한다. 파란 하늘이 정말 아름답다고 말한다.")).length = 1 ∧
    List.count "파란 하늘이 정말 아름답다고 말한다"
      (pickInOrder
        (usedSentences
          "파란 하늘이 정말 아름답다고 말한다. 파란 하늘이 정말 아름답다고 말한다. 파란 하늘이 정말 아름답다고 말한다.")
        (topSentences
          (sentenceScores (usedSentences
            "파란 하늘이 정말 아름답다고 말한다. 파란 하늘이 정말 아름답다고 말한다. 파란 하늘이 정말 아름답다고 말한다."))
          3)
        3) = 3 ∧
    simple_summarize
        "파란 하늘이 정말 아름답다고 말한다. 파란 하늘이 정말 아름답다고 말한다. 파란 하늘이 정말 아름답다고 말한다."
        3 =
      "파란 하늘이 정말 아름답다고 말한다. 파란 하늘이 정말 아름답다고 말한다. 파란 하늘이 정말 아름답다고 말한다." := by
  decide

/-- C10 (amended): the scorer produces exactly one entry per distinct
sentence string — its key sequence is duplicate-free and covers exactly the
surviving sentences — and the entry of every surviving sentence is computed
with the position weight of its FIRST occurrence (`sentences.index`); the
assembled summary, however, may repeat a duplicated sentence once per
surviving occurrence up to `max_sentences` (see the counterexample). -/
theorem C10_scorer_one_entry_per_string (sents : List String) :
    ((sentenceScores sents).map Prod.fst).Nodup ∧
    (∀ s, s ∈ (sentenceScores sents).map Prod.fst ↔ s ∈ sents) ∧
    (∀ s ∈ sents, lookupAssoc (sentenceScores sents) s =
      some ((baseScore (wordFreqOf (joinSpace sents)) s : ℚ) *
        posWeight (firstIdx sents s) sents.length * lenWeight s)) := by
  refine ⟨sentenceScores_keys_nodup sents, ?_, ?_⟩
  · intro s
    have h := scores_fold_keys_mem
      (fun t => scoreSentence sents (wordFreqOf (joinSpace sents)) t)
      sents [] s
    simpa using h
  · intro s hs
    rw [sentenceScores_lookup sents s hs]
    rfl

unseal Rat.add Rat.mul Rat.inv Rat.sub in
/-- C10 (witness): a concrete duplicated list, checked on its sentence. -/
theorem C10_witness :
    ("가나 가나" ∈ (["가나 가나", "가나 가나"] : List String)) ∧
      lookupAssoc (sentenceScores ["가나 가나", "가나 가나"]) "가나 가나" =
        some ((baseScore (wordFreqOf (joinSpace ["가나 가나", "가나 가나"]))
            "가나 가나" : ℚ) *
          posWeight (firstIdx ["가나 가나", "가나 가나"] "가나 가나")
            (["가나 가나", "가나 가나"] : List String).length *
          lenWeight "가나 가나") :=
  ⟨by decide,
    (C10_scorer_one_entry_per_string ["가나 가나", "가나 가나"]).2.2
      "가나 가나" (by decide)⟩
